import Mathlib

/-
Verification of the schematic metadata-model core: the manifest validator
(MetadataModel.validateModelManifest), the dependency resolvers
(getOrderedModelNodes, get_component_requirements) and the validation-rule
token splitter (parse_validation_rules).

Python strings are embedded as lists of characters (PyStr).  The string
operations the source uses (str.strip, str.split, str.replace, repr,
re.findall for the two fixed patterns) are defined below, faithful to
Python semantics on the inputs the source feeds them.
-/

set_option maxHeartbeats 1000000

abbrev PyStr := List Char

/-- The apostrophe character (39).  Written via its code point. -/
def apos : Char := Char.ofNat 39

/-- The double-quote character (34). -/
def dq : Char := Char.ofNat 34

/-- The backslash character (92). -/
def bslash : Char := Char.ofNat 92

/-- Whitespace test used by Python str.strip. -/
def pyIsSpace (c : Char) : Bool :=
  c = ' ' || c = Char.ofNat 9 || c = Char.ofNat 10 ||
  c = Char.ofNat 13 || c = Char.ofNat 11 || c = Char.ofNat 12

/-- Python str.strip: drop whitespace at both ends. -/
def pyStrip (l : PyStr) : PyStr :=
  ((l.dropWhile pyIsSpace).reverse.dropWhile pyIsSpace).reverse

/-- Core of Python repr for strings: wrap in quote q, escaping backslash and q.
Control-character escapes are not modelled (the inputs in scope are printable). -/
def pyReprAux (q : Char) (l : PyStr) : PyStr :=
  q :: (l.map (fun c => if c = bslash ∨ c = q then [bslash, c] else [c])).flatten ++ [q]

/-- Python repr of a string: double-quoted when the string holds an apostrophe
but no double quote, else single-quoted with apostrophes escaped. -/
def pyRepr (l : PyStr) : PyStr :=
  if apos ∈ l ∧ ¬ dq ∈ l then pyReprAux dq l else pyReprAux apos l

/-- Python sep.join for a list of strings. -/
def pyJoin (sep : PyStr) : List PyStr → PyStr
  | [] => []
  | [x] => x
  | x :: y :: rest => x ++ sep ++ pyJoin sep (y :: rest)

/-- Python repr of a list of strings: brackets around a comma-space join of reprs. -/
def pyReprList (l : List PyStr) : PyStr :=
  '[' :: pyJoin [',', ' '] (l.map pyRepr) ++ [']']

/-- Decimal digit characters of a natural number, fuel-indexed. -/
def natDigitsAux : Nat → Nat → PyStr
  | 0, _ => []
  | fuel + 1, n =>
    if n < 10 then [Char.ofNat (48 + n)]
    else natDigitsAux fuel (n / 10) ++ [Char.ofNat (48 + n % 10)]

/-- Python str of a natural number (decimal). -/
def natDigits (n : Nat) : PyStr := natDigitsAux (n + 1) n

/-- State machine equivalent to re.findall with a non-greedy bracket pair
pattern: outside a match it scans for the opening delimiter, inside it
captures up to the first closing delimiter, then resumes scanning. -/
def findallDelimAux (opn cls : Char) : PyStr → Option PyStr → List PyStr
  | [], _ => []
  | c :: rest, none =>
    if c = opn then findallDelimAux opn cls rest (some [])
    else findallDelimAux opn cls rest none
  | c :: rest, some acc =>
    if c = cls then acc.reverse :: findallDelimAux opn cls rest none
    else findallDelimAux opn cls rest (some (c :: acc))

/-- All captures of the source pattern matching a single-quoted substring. -/
def findallQuote (l : PyStr) : List PyStr := findallDelimAux apos apos l none

/-- All captures of the source pattern matching a bracketed substring. -/
def findallBracket (l : PyStr) : List PyStr := findallDelimAux '[' ']' l none

/-- Python s.split(sep) for the two-character separators the source uses. -/
def pySplit2 (a b : Char) : PyStr → List PyStr
  | [] => [[]]
  | [c] => [[c]]
  | c :: d :: rest =>
    if c = a ∧ d = b then [] :: pySplit2 a b rest
    else
      match pySplit2 a b (d :: rest) with
      | [] => [[c]]
      | g :: gs => (c :: g) :: gs

/-- Python two-character substring containment (the source tests for a
double-colon inside a rule string). -/
def containsPair (a b : Char) : PyStr → Bool
  | [] => false
  | [_] => false
  | c :: d :: rest => (c = a && d = b) || containsPair a b (d :: rest)

/-- Python s.replace(pat, rep), fuel-indexed; correct whenever pat is
nonempty and the fuel is at least the length of the subject. -/
def pyReplaceAux (pat rep : PyStr) : Nat → PyStr → PyStr
  | 0, s => s
  | _ + 1, [] => []
  | fuel + 1, c :: rest =>
    if pat.isPrefixOf (c :: rest) then
      rep ++ pyReplaceAux pat rep fuel (List.drop pat.length (c :: rest))
    else c :: pyReplaceAux pat rep fuel rest

/-- Python s.replace(pat, rep). -/
def pyReplace (pat rep s : PyStr) : PyStr := pyReplaceAux pat rep s.length s

/- ---------------------------------------------------------------------
Data model of the record validator (MetadataModel.validateModelManifest).
--------------------------------------------------------------------- -/

/-- One field constraint of the synthesized validation schema.  Only the
constraint kinds exercised by the manifest validator are carried: an
optional enumeration of allowed values. -/
structure FieldConstraint where
  enum : Option (List PyStr)
deriving DecidableEq

/-- The validation schema applied to each manifest record: per-field
constraints plus a list of required field names, as in the JSON Schema
documents get_JSONSchema_requirements synthesizes. -/
structure JsonSchema where
  properties : List (PyStr × FieldConstraint)
  required : List PyStr
deriving DecidableEq

/-- A parsed manifest record after normalization: field name to cell value. -/
abbrev Record := List (PyStr × PyStr)

/-- A raw manifest record before normalization; a none cell is a missing
(NaN) value in the parsed table. -/
abbrev RawRecord := List (PyStr × Option PyStr)

/-- A single violation reported by the underlying validator. -/
inductive Violation where
  | enumV (field value : PyStr) (allowed : List PyStr)
  | reqV (field : PyStr) (inst : Record)
deriving DecidableEq

/-- First enumeration violation in schema property order: a present field
whose value is outside a declared enum. -/
def firstEnumViolation (props : List (PyStr × FieldConstraint)) (rec : Record) :
    Option Violation :=
  match props with
  | [] => none
  | (f, c) :: rest =>
    match rec.lookup f, c.enum with
    | some v, some l => if v ∈ l then firstEnumViolation rest rec
                        else some (.enumV f v l)
    | _, _ => firstEnumViolation rest rec

/-- First missing required field in required-list order. -/
def firstReqViolation (req : List PyStr) (rec : Record) : Option Violation :=
  match req with
  | [] => none
  | f :: rest =>
    if (rec.lookup f).isSome then firstReqViolation rest rec
    else some (.reqV f rec)

/-- Models jsonschema.validate on one record: it raises at most one
ValidationError, the best match of all failures.  Under the relevance
ranking jsonschema uses, errors at the instance root (missing required
fields, path length 0) outrank per-field enum errors (path length 1), and
among peers the first in iteration order wins. -/
def jsValidate (s : JsonSchema) (rec : Record) : Option Violation :=
  match firstReqViolation s.required rec with
  | some e => some e
  | none => firstEnumViolation s.properties rec

/-- The opening brace character (123). -/
def lbrace : Char := Char.ofNat 123

/-- The closing brace character (125). -/
def rbrace : Char := Char.ofNat 125

/-- Splits a string into word-plus-trailing-whitespace parts, the token
split the pretty-printer wraps long strings on; fuel-indexed, with the
fuel at least the length of the input. -/
def pyPartsAux : Nat → PyStr → List PyStr
  | 0, _ => []
  | _ + 1, [] => []
  | fuel + 1, c :: rest =>
    let word := (c :: rest).takeWhile (fun x => ! pyIsSpace x)
    let rest1 := (c :: rest).dropWhile (fun x => ! pyIsSpace x)
    (word ++ rest1.takeWhile pyIsSpace) :: pyPartsAux fuel (rest1.dropWhile pyIsSpace)

/-- The word-plus-trailing-whitespace parts of a string. -/
def pyParts (v : PyStr) : List PyStr := pyPartsAux v.length v

/-- Greedy packing of parts into chunks whose reprs stay within the given
width, as the pretty-printer does: a part that would overflow the current
chunk starts a new one. -/
def packParts (width : Nat) : List PyStr → PyStr → List PyStr
  | [], current => if current = [] then [] else [current]
  | part :: rest, current =>
    if width < (pyRepr (current ++ part)).length then
      if current = [] then packParts width rest part
      else current :: packParts width rest part
    else packParts width rest (current ++ part)

/-- Renders the wrapped chunks after the first: one extra space of
continuation indent, the last chunk closing the parenthesis. -/
def renderChunkLines : List PyStr → List PyStr
  | [] => []
  | [c] => [("     ").data ++ pyRepr c ++ [')']]
  | c :: c2 :: rest => (("     ").data ++ pyRepr c) :: renderChunkLines (c2 :: rest)

/-- The pretty-printed lines of a string instance inside str(e): a single
four-space-indented repr when it fits width 72, as the pretty-printer the
validator uses decides; otherwise the parenthesized adjacent string
literals of the word-wrapped value, one per line (a value that wraps into
a single chunk stays on one line).  The chunk boundaries follow the
pretty-printer's greedy packing; no theorem below depends on where the
boundaries fall, only on the first line of the message and on the fact
that the tail may span several lines. -/
def pprintInstanceLines (v : PyStr) : List PyStr :=
  let rep := pyRepr v
  if rep.length ≤ 72 then [("    ").data ++ rep]
  else
    match packParts 71 (pyParts v) [] with
    | [] => [("    ").data ++ rep]
    | [_] => [("    ").data ++ rep]
    | c1 :: c2 :: rest =>
      (("    (").data ++ pyRepr c1) :: renderChunkLines (c2 :: rest)

/-- Python repr of a record as a dict. -/
def pyDictRepr (r : Record) : PyStr :=
  lbrace :: pyJoin [',', ' ']
    (r.map (fun p => pyRepr p.1 ++ (": ").data ++ pyRepr p.2)) ++ [rbrace]

/-- Renders the dict entries after the first when the dict wraps: one line
per entry at the brace alignment, the last entry closing the brace. -/
def renderDictLines : List PyStr → List PyStr
  | [] => []
  | [e] => [("     ").data ++ e ++ [rbrace]]
  | e :: e2 :: rest => (("     ").data ++ e ++ [',']) :: renderDictLines (e2 :: rest)

/-- The pretty-printed lines of a record instance inside str(e): one line
when the dict repr fits width 72, else one line per entry with the brace
alignment of the pretty-printer.  Wrapping inside a single long entry is
not modelled; no theorem below reads these lines. -/
def pprintDictLines (r : Record) : List PyStr :=
  let rep := pyDictRepr r
  if rep.length ≤ 72 then [("    ").data ++ rep]
  else
    match r.map (fun p => pyRepr p.1 ++ (": ").data ++ pyRepr p.2) with
    | [] => [("    ").data ++ rep]
    | [e1] => [("    ").data ++ lbrace :: e1 ++ [rbrace]]
    | e1 :: e2 :: erest =>
      (("    ").data ++ lbrace :: e1 ++ [',']) :: renderDictLines (e2 :: erest)

/-- The lines of str(e) for a jsonschema ValidationError, as split on
newline by the source.  The first line is the single-line message; the
trailing lines are the width-72 pretty-print of the offending instance,
which wraps across several lines when the instance repr is long.  The
schema pretty-print on line 3 is abbreviated since its content is never
inspected by the source. -/
def errLines : Violation → List PyStr
  | .enumV f v l =>
    [ pyRepr v ++ (" is not one of ").data ++ pyReprList l
    , []
    , ("Failed validating ").data ++ pyRepr ("enum").data ++
        (" in schema[").data ++ pyRepr ("properties").data ++ ("][").data ++
        pyRepr f ++ ("]:").data
    , ("    ...").data
    , []
    , ("On instance[").data ++ pyRepr f ++ ("]:").data ]
    ++ pprintInstanceLines v
  | .reqV f rec =>
    [ pyRepr f ++ (" is a required property").data
    , []
    , ("Failed validating ").data ++ pyRepr ("required").data ++ (" in schema:").data
    , ("    ...").data
    , []
    , ("On instance:").data ]
    ++ pprintDictLines rec

/-- The diagnostic tuple the source appends per failing record:
(errorRow, errorTerms, errorValue, allowedValues).  In Python errorTerms
is either the empty list or a single extracted term; it is embedded as a
list of length at most one. -/
structure Diag where
  row : Nat
  fields : List PyStr
  suppliedValue : PyStr
  allowedValues : List PyStr
deriving DecidableEq

/-- The except-branch of validateModelManifest for the record at 0-based
index i: parses the validator error text back into a diagnostic tuple.
Returns none exactly when the Python code would raise an IndexError
(first error line holds no quoted substring), which propagates out of the
whole call. -/
def processError (i : Nat) (e : Violation) : Option Diag :=
  let errorRow := i + 2
  let errors := errLines e
  let line0 := errors.headD []
  match findallQuote line0 with
  | [] => none
  | errorValue :: _ =>
    let errorMessage := ("At row ").data ++ natDigits errorRow ++ (": ").data ++ line0
    let allowedValues :=
      match findallBracket errorMessage with
      | [] => ([] : List PyStr)
      | a :: _ => pySplit2 ',' ' ' (a.filter (fun c => c != apos))
    let errorDetail := pyReplace ("On instance").data ("At term").data
      (errors.getD (errors.length - 2) [])
    let errorTerms :=
      match findallBracket errorDetail with
      | [] => ([] : List PyStr)
      | t :: _ => [(pySplit2 ',' ' ' (t.filter (fun c => c != apos))).headD []]
    some ⟨errorRow, errorTerms, errorValue, allowedValues⟩

/-- Normalization of one raw cell, from the source: fillna turns a missing
value into the empty string, then str.strip removes surrounding whitespace. -/
def normalizeCell (c : Option PyStr) : PyStr := pyStrip (c.getD [])

/-- Cell-wise normalization of a raw record. -/
def normalizeRecord (r : RawRecord) : Record :=
  r.map (fun p => (p.1, normalizeCell p.2))

/-- The per-record loop of validateModelManifest starting at 0-based record
index i: each record is validated; a validator error is parsed into a
diagnostic; a parse failure (Python IndexError) aborts the whole call. -/
def validateRows (s : JsonSchema) : Nat → List Record → Option (List Diag)
  | _, [] => some []
  | i, rec :: rest =>
    match jsValidate s rec with
    | none => validateRows s (i + 1) rest
    | some e =>
      match processError i e with
      | none => none
      | some d =>
        match validateRows s (i + 1) rest with
        | none => none
        | some ds => some (d :: ds)

/-- MetadataModel.validateModelManifest on an already-parsed manifest: the
cells are normalized (fillna with the empty string, strip whitespace) and
every record is validated in order; the result is the list of diagnostic
tuples, or none when the brittle error parsing raises. -/
def validateModelManifest (s : JsonSchema) (manifest : List RawRecord) :
    Option (List Diag) :=
  validateRows s 0 (manifest.map normalizeRecord)

/- ---------------------------------------------------------------------
parse_validation_rules (src/schematic/utils/schema_utils.py).
--------------------------------------------------------------------- -/

/-- schema_utils.parse_validation_rules: when the list is nonempty and its
first rule string holds a double colon, that first string is split on the
double colon; otherwise the list is returned unchanged. -/
def parse_validation_rules (validation_rules : List PyStr) : List PyStr :=
  match validation_rules with
  | [] => validation_rules
  | r :: _ =>
    if containsPair ':' ':' r then pySplit2 ':' ':' r else validation_rules

/- ---------------------------------------------------------------------
Schema graph and the dependency resolvers.
--------------------------------------------------------------------- -/

/-- The schema graph: node labels and typed edges (source, kind, target). -/
structure SchemaGraph where
  nodes : List String
  edges : List (String × String × String)
deriving DecidableEq

/-- Resolver failures, from the spec error taxonomy. -/
inductive GraphError where
  | notFound
  | cycleDetected
deriving DecidableEq

/-- Targets of the edges of a given kind leaving a node. -/
def outNeighbors (g : SchemaGraph) (k : String) (u : String) : List String :=
  (g.edges.filter (fun e => e.1 == u && e.2.1 == k)).map (fun e => e.2.2)

/-- Depth-first traversal with an explicit gray path for cycle detection
and a finish-ordered accumulator; fuel-indexed, with fuel exhaustion
reported as a detected cycle (the traversal-bound safety net of the spec). -/
def dfsList (g : SchemaGraph) (k : String) :
    Nat → List String → List String → List String → Except GraphError (List String)
  | 0, _, _, _ => .error .cycleDetected
  | _ + 1, [], _, finished => .ok finished
  | fuel + 1, v :: vs, path, finished =>
    if v ∈ path then .error .cycleDetected
    else if v ∈ finished then dfsList g k fuel vs path finished
    else
      match dfsList g k fuel (outNeighbors g k v) (v :: path) finished with
      | .error e => .error e
      | .ok fin2 => dfsList g k fuel vs path (fin2 ++ [v])

/-- Fuel bound for the traversals, comfortably above the number of
traversal steps possible in the graph. -/
def graphFuel (g : SchemaGraph) : Nat :=
  (g.nodes.length + g.edges.length + 2) * (g.nodes.length + g.edges.length + 2)

/-- Modelled from the spec: schema_generator.get_descendants_by_edge_type is
not under src.  Per the spec, with connected and ordered set it computes the
nodes reachable from the root along edges of the requested kind, in a
topological order of the reachable subgraph (every edge source before its
target, the reverse of the depth-first postorder), with the root excluded
and duplicates removed; it fails with NotFound for an absent root and with
CycleDetected for a cyclic reachable subgraph. -/
def get_descendants_by_edge_type (g : SchemaGraph)
    (rootNode relationshipType : String) : Except GraphError (List String) :=
  if rootNode ∈ g.nodes then
    match dfsList g relationshipType (graphFuel g) [rootNode] [] [] with
    | .error e => .error e
    | .ok post => .ok ((post.reverse).filter (fun x => x != rootNode))
  else .error .notFound

/-- MetadataModel.getOrderedModelNodes: the ordered descendants of the root
along the relationship type, then the whole sequence is reversed. -/
def getOrderedModelNodes (g : SchemaGraph) (rootNode relationshipType : String) :
    Except GraphError (List String) :=
  match get_descendants_by_edge_type g rootNode relationshipType with
  | .error e => .error e
  | .ok ordered_nodes => .ok ordered_nodes.reverse

/-- Breadth-first traversal with first-visit deduplication at dequeue time;
fuel exhaustion is reported as a detected cycle. -/
def bfsComponents (g : SchemaGraph) (k : String) :
    Nat → List String → List String → Except GraphError (List String)
  | 0, _, _ => .error .cycleDetected
  | _ + 1, [], acc => .ok acc
  | fuel + 1, u :: queue, acc =>
    if u ∈ acc then bfsComponents g k fuel queue acc
    else bfsComponents g k fuel (queue ++ outNeighbors g k u) (acc ++ [u])

/-- Modelled from the spec: schema_generator.get_component_requirements is
not under src.  Per the spec it is the breadth-first transitive closure of
the requiresComponent edges from the source component, nearest requirement
first, each component at most once, the source excluded; NotFound for an
absent source. -/
def requiredComponents (g : SchemaGraph) (source : String) :
    Except GraphError (List String) :=
  if source ∈ g.nodes then
    match bfsComponents g "requiresComponent" (graphFuel g) [source] [] with
    | .error e => .error e
    | .ok l => .ok (l.filter (fun x => x != source))
  else .error .notFound

/-- MetadataModel.get_component_requirements: fetches the schema graph and
delegates to the schema_generator resolver. -/
def get_component_requirements (g : SchemaGraph) (source_component : String) :
    Except GraphError (List String) :=
  requiredComponents g source_component

/-- Ordering predicate used by the ordering claims: x is placed strictly
before y in the list. -/
def placedBefore (l : List String) (x y : String) : Prop :=
  l.indexOf x < l.indexOf y ∧ x ∈ l ∧ y ∈ l

instance (l : List String) (x y : String) : Decidable (placedBefore l x y) :=
  inferInstanceAs (Decidable (l.indexOf x < l.indexOf y ∧ x ∈ l ∧ y ∈ l))

/-- Labels and values whose characters are alphanumeric; the cleanliness
assumption under which the error-text parsing round-trips. -/
def cleanLabel (l : PyStr) : Prop := ∀ c ∈ l, c.isAlphanum = true

instance instDecCleanLabel (l : PyStr) : Decidable (cleanLabel l) :=
  decidable_of_iff (l.all Char.isAlphanum = true)
    (by simp [cleanLabel, List.all_eq_true])

/- ---------------------------------------------------------------------
Concrete inputs used by the witnesses and counterexamples.
--------------------------------------------------------------------- -/

/-- A three-node requiresDependency chain: Patient requires Diagnosis,
Diagnosis requires CancerType. -/
def exGraph : SchemaGraph :=
  ⟨["Patient", "Diagnosis", "CancerType"],
   [("Patient", "requiresDependency", "Diagnosis"),
    ("Diagnosis", "requiresDependency", "CancerType")]⟩

/-- A requiresComponent diamond over three components. -/
def exCompGraph : SchemaGraph :=
  ⟨["A", "B", "C"],
   [("A", "requiresComponent", "B"),
    ("A", "requiresComponent", "C"),
    ("B", "requiresComponent", "C")]⟩

/-- Schema with one enumerated field F allowing only the value A. -/
def exSchemaF : JsonSchema := ⟨[(("F").data, ⟨some [("A").data]⟩)], []⟩

/-- Schema with two enumerated fields, each allowing one value. -/
def exSchemaAB : JsonSchema :=
  ⟨[(("A").data, ⟨some [("x").data]⟩), (("B").data, ⟨some [("y").data]⟩)], []⟩

/-- A record violating both constraints of exSchemaAB at once. -/
def exRowAB : RawRecord :=
  [(("A").data, some ("bad").data), (("B").data, some ("bad").data)]

/-- Schema with a single required field G and no property constraints. -/
def exSchemaReq : JsonSchema := ⟨[], [("G").data]⟩

/-- Schema whose single required field name holds an apostrophe. -/
def exSchemaApos : JsonSchema := ⟨[], [("pat").data ++ [apos] ++ ("s").data]⟩

/-- A manifest of two records, both violating the enumeration of exSchemaF. -/
def exManifestTwoBad : List RawRecord :=
  [[(("F").data, some ("B").data)], [(("F").data, some ("C").data)]]

/-- A manifest with a valid first record and an invalid second record. -/
def exManifestMixed : List RawRecord :=
  [[(("F").data, some ("A").data)], [(("F").data, some ("B").data)]]

/-- A record whose supplied value holds square brackets. -/
def exRowBracket : RawRecord := [(("F").data, some ("x[1]y").data)]

/-- A record with the plain out-of-enumeration value B. -/
def exRowEnumB : RawRecord := [(("F").data, some ("B").data)]

/-- A record whose single cell is missing. -/
def exRowNull : RawRecord := [(("F").data, none)]

/-- A record whose single cell is whitespace only. -/
def exRowSpaces : RawRecord := [(("F").data, some ("  ").data)]

/-- A finish-ordered list is closed below when every finished node has all
its outgoing neighbors strictly earlier in the list: the defining invariant
of a depth-first postorder. -/
def closedBelow (g : SchemaGraph) (k : String) (fin : List String) : Prop :=
  ∀ l1 u l2, fin = l1 ++ u :: l2 → ∀ w ∈ outNeighbors g k u, w ∈ l1

instance instDecEqExcept {E A : Type} [DecidableEq E] [DecidableEq A] :
    DecidableEq (Except E A) := fun a b =>
  match a, b with
  | .error e1, .error e2 =>
    if h : e1 = e2 then .isTrue (by rw [h]) else .isFalse (fun hc => h (Except.error.inj hc))
  | .ok x, .ok y =>
    if h : x = y then .isTrue (by rw [h]) else .isFalse (fun hc => h (Except.ok.inj hc))
  | .error _, .ok _ => .isFalse (fun hc => Except.noConfusion hc)
  | .ok _, .error _ => .isFalse (fun hc => Except.noConfusion hc)

/- ---------------------------------------------------------------------
Lemmas about the embedded Python string operations.
--------------------------------------------------------------------- -/

theorem findallDelimAux_none_of_not_mem (opn cls : Char) (l : PyStr)
    (h : opn ∉ l) : findallDelimAux opn cls l none = [] := by
  induction l with
  | nil => rfl
  | cons c rest ih =>
    simp only [List.mem_cons, not_or] at h
    rw [findallDelimAux, if_neg (fun hc => h.1 hc.symm)]
    exact ih h.2

theorem findallDelimAux_append_none (opn cls : Char) (pre rest : PyStr)
    (h : opn ∉ pre) :
    findallDelimAux opn cls (pre ++ rest) none = findallDelimAux opn cls rest none := by
  induction pre with
  | nil => rfl
  | cons c pre2 ih =>
    simp only [List.mem_cons, not_or] at h
    rw [List.cons_append, findallDelimAux, if_neg (fun hc => h.1 hc.symm)]
    exact ih h.2

theorem findallDelimAux_capture (opn cls : Char) (mid post : PyStr) (acc : PyStr)
    (h : cls ∉ mid) :
    findallDelimAux opn cls (mid ++ cls :: post) (some acc) =
      (acc.reverse ++ mid) :: findallDelimAux opn cls post none := by
  induction mid generalizing acc with
  | nil => rw [List.nil_append, findallDelimAux, if_pos rfl]; simp
  | cons c mid2 ih =>
    simp only [List.mem_cons, not_or] at h
    rw [List.cons_append, findallDelimAux, if_neg (fun hc => h.1 hc.symm)]
    rw [ih _ h.2]
    simp

theorem findall_first_capture (opn cls : Char) (pre mid post : PyStr)
    (h1 : opn ∉ pre) (h2 : cls ∉ mid) :
    findallDelimAux opn cls (pre ++ opn :: (mid ++ cls :: post)) none =
      mid :: findallDelimAux opn cls post none := by
  rw [findallDelimAux_append_none opn cls pre _ h1]
  rw [findallDelimAux, if_pos rfl]
  rw [findallDelimAux_capture opn cls mid post [] h2]
  simp

theorem findallDelimAux_some_ne_nil (opn cls : Char) (l : PyStr)
    (h : 1 ≤ l.count cls) : ∀ acc, findallDelimAux opn cls l (some acc) ≠ [] := by
  induction l with
  | nil => simp at h
  | cons c rest ih =>
    intro acc
    by_cases hc : c = cls
    · rw [findallDelimAux, if_pos hc]; simp
    · rw [findallDelimAux, if_neg hc]
      rw [List.count_cons] at h
      simp only [beq_iff_eq] at h
      rw [if_neg hc] at h
      exact ih (by omega) _

theorem findallQuote_ne_nil (l : PyStr) (h : 2 ≤ l.count apos) :
    findallQuote l ≠ [] := by
  unfold findallQuote
  induction l with
  | nil => simp at h
  | cons c rest ih =>
    by_cases hc : c = apos
    · rw [findallDelimAux, if_pos hc]
      rw [List.count_cons] at h
      apply findallDelimAux_some_ne_nil
      simp only [beq_iff_eq] at h
      rw [if_pos hc] at h
      omega
    · rw [findallDelimAux, if_neg hc]
      rw [List.count_cons] at h
      simp only [beq_iff_eq] at h
      rw [if_neg hc] at h
      exact ih h


theorem mem_pyReprAux (q c : Char) (l : PyStr) (h : c ∈ pyReprAux q l) :
    c = q ∨ c = bslash ∨ c ∈ l := by
  unfold pyReprAux at h
  rcases List.mem_cons.mp h with h | h
  · exact Or.inl h
  rcases List.mem_append.mp h with h | h
  · obtain ⟨a, ha, hca⟩ := List.mem_flatten.mp h
    obtain ⟨x, hx, hfx⟩ := List.mem_map.mp ha
    subst hfx
    by_cases hb : x = bslash ∨ x = q
    · rw [if_pos hb] at hca
      rcases List.mem_cons.mp hca with hca | hca
      · exact Or.inr (Or.inl hca)
      · rw [List.mem_singleton] at hca
        subst hca; exact Or.inr (Or.inr hx)
    · rw [if_neg hb] at hca
      rw [List.mem_singleton] at hca
      subst hca; exact Or.inr (Or.inr hx)
  · rw [List.mem_singleton] at h
    exact Or.inl h

theorem mem_pyRepr (c : Char) (l : PyStr) (h : c ∈ pyRepr l) :
    c = apos ∨ c = dq ∨ c = bslash ∨ c ∈ l := by
  unfold pyRepr at h
  split at h
  · rcases mem_pyReprAux dq c l h with h | h | h
    · exact Or.inr (Or.inl h)
    · exact Or.inr (Or.inr (Or.inl h))
    · exact Or.inr (Or.inr (Or.inr h))
  · rcases mem_pyReprAux apos c l h with h | h | h
    · exact Or.inl h
    · exact Or.inr (Or.inr (Or.inl h))
    · exact Or.inr (Or.inr (Or.inr h))

theorem count_apos_pyReprAux_apos (l : PyStr) :
    2 ≤ (pyReprAux apos l).count apos := by
  simp only [pyReprAux, List.count_cons, List.count_append]
  simp

theorem count_apos_pyRepr (l : PyStr) : 1 ≤ (pyRepr l).count apos := by
  unfold pyRepr
  split
  next h =>
    have hmem : apos ∈ pyReprAux dq l := by
      unfold pyReprAux
      apply List.mem_cons_of_mem
      apply List.mem_append_left
      apply List.mem_flatten.mpr
      refine ⟨if apos = bslash ∨ apos = dq then [bslash, apos] else [apos],
        List.mem_map_of_mem _ h.1, ?_⟩
      rw [if_neg (by decide)]
      exact List.mem_singleton_self apos
    exact List.count_pos_iff.mpr hmem
  next h =>
    have := count_apos_pyReprAux_apos l
    omega

theorem pyReprAux_clean (q : Char) (l : PyStr)
    (h : ∀ c ∈ l, ¬ (c = bslash ∨ c = q)) :
    pyReprAux q l = q :: l ++ [q] := by
  unfold pyReprAux
  have : (l.map (fun c => if c = bslash ∨ c = q then [bslash, c] else [c])).flatten = l := by
    induction l with
    | nil => rfl
    | cons c rest ih =>
      rw [List.map_cons, List.flatten_cons, if_neg (h c (List.mem_cons_self c rest))]
      rw [ih (fun x hx => h x (List.mem_cons_of_mem c hx))]
      rfl
  rw [this]

theorem cleanLabel_not_mem (l : PyStr) (h : cleanLabel l) (c : Char)
    (hc : c.isAlphanum = false) : c ∉ l := by
  intro hm
  have := h c hm
  rw [hc] at this
  exact absurd this (by decide)

theorem pyRepr_clean (l : PyStr) (h : cleanLabel l) :
    pyRepr l = apos :: l ++ [apos] := by
  unfold pyRepr
  rw [if_neg (fun hcon => cleanLabel_not_mem l h apos (by decide) hcon.1)]
  apply pyReprAux_clean
  intro c hc hor
  rcases hor with he | he
  · subst he
    exact cleanLabel_not_mem l h bslash (by decide) hc
  · subst he
    exact cleanLabel_not_mem l h apos (by decide) hc

theorem natDigitsAux_chars (fuel n : Nat) (c : Char)
    (h : c ∈ natDigitsAux fuel n) : ∃ d, d < 10 ∧ c = Char.ofNat (48 + d) := by
  induction fuel generalizing n with
  | zero => simp [natDigitsAux] at h
  | succ fuel ih =>
    rw [natDigitsAux] at h
    by_cases hn : n < 10
    · rw [if_pos hn] at h
      rw [List.mem_singleton] at h
      exact ⟨n, hn, h⟩
    · rw [if_neg hn] at h
      rcases List.mem_append.mp h with h | h
      · exact ih _ h
      · rw [List.mem_singleton] at h
        exact ⟨n % 10, Nat.mod_lt _ (by omega), h⟩

theorem natDigits_not_mem (n : Nat) (c : Char)
    (hc : ∀ d, d < 10 → ¬ c = Char.ofNat (48 + d)) : c ∉ natDigits n := by
  intro hm
  obtain ⟨d, hd, he⟩ := natDigitsAux_chars _ _ _ hm
  exact hc d hd he

theorem pyJoin_cons_structure (sep x : PyStr) (xs : List PyStr) :
    ∃ t, pyJoin sep (x :: xs) = x ++ t := by
  cases xs with
  | nil => refine ⟨[], ?_⟩; rw [pyJoin, List.append_nil]
  | cons y rest =>
    refine ⟨sep ++ pyJoin sep (y :: rest), ?_⟩
    rw [pyJoin, List.append_assoc]

theorem mem_pyJoin (sep : PyStr) (l : List PyStr) (c : Char)
    (h : c ∈ pyJoin sep l) : c ∈ sep ∨ ∃ x ∈ l, c ∈ x := by
  induction l with
  | nil => simp [pyJoin] at h
  | cons x xs ih =>
    cases xs with
    | nil =>
      rw [pyJoin] at h
      exact Or.inr ⟨x, List.mem_singleton_self x, h⟩
    | cons y rest =>
      rw [pyJoin] at h
      rcases List.mem_append.mp h with h | h
      · rcases List.mem_append.mp h with h | h
        · exact Or.inr ⟨x, List.mem_cons_self _ _, h⟩
        · exact Or.inl h
      · rcases ih h with h | ⟨z, hz, hcz⟩
        · exact Or.inl h
        · exact Or.inr ⟨z, List.mem_cons_of_mem _ hz, hcz⟩

theorem containsPair_eq_false_of_not_mem (a b : Char) (l : PyStr) (h : a ∉ l) :
    containsPair a b l = false := by
  induction l with
  | nil => rfl
  | cons c rest ih =>
    simp only [List.mem_cons, not_or] at h
    cases rest with
    | nil => rfl
    | cons d rest2 =>
      rw [containsPair]
      have h1 : (c = a : Bool) = false := by
        simp only [decide_eq_false_iff_not]
        exact fun he => h.1 he.symm
      rw [h1, Bool.false_and, Bool.false_or]
      exact ih h.2

theorem pySplit2_of_containsPair_false (a b : Char) (l : PyStr)
    (h : containsPair a b l = false) : pySplit2 a b l = [l] := by
  induction l with
  | nil => rfl
  | cons c rest ih =>
    cases rest with
    | nil => rfl
    | cons d rest2 =>
      rw [containsPair, Bool.or_eq_false_iff] at h
      have hcd : ¬ (c = a ∧ d = b) := by
        intro hcon
        rw [hcon.1, hcon.2] at h
        simp at h
      rw [pySplit2, if_neg hcd, ih h.2]

theorem pySplit2_of_not_mem (a b : Char) (l : PyStr) (h : a ∉ l) :
    pySplit2 a b l = [l] :=
  pySplit2_of_containsPair_false a b l (containsPair_eq_false_of_not_mem a b l h)

theorem pySplit2_append_sep (a b : Char) (x rest : PyStr) (hx : a ∉ x) :
    pySplit2 a b (x ++ a :: b :: rest) = x :: pySplit2 a b rest := by
  induction x with
  | nil => rw [List.nil_append, pySplit2, if_pos ⟨rfl, rfl⟩]
  | cons c x2 ih =>
    simp only [List.mem_cons, not_or] at hx
    have hca : ¬ c = a := fun he => hx.1 he.symm
    have ih2 := ih hx.2
    cases x2 with
    | nil =>
      rw [List.nil_append] at ih2
      rw [List.cons_append, List.nil_append, pySplit2,
        if_neg (fun hcon => hca hcon.1), ih2]
    | cons d x3 =>
      rw [List.cons_append, List.cons_append, pySplit2,
        if_neg (fun hcon => hca hcon.1)]
      rw [List.cons_append] at ih2
      rw [ih2]

theorem pyJoin_split_roundtrip (a b : Char) (L : List PyStr) (hne : L ≠ [])
    (h : ∀ x ∈ L, a ∉ x) :
    pySplit2 a b (pyJoin [a, b] L) = L := by
  induction L with
  | nil => exact absurd rfl hne
  | cons x xs ih =>
    cases xs with
    | nil =>
      rw [pyJoin]
      exact pySplit2_of_not_mem a b x (h x (List.mem_singleton_self x))
    | cons y rest =>
      rw [pyJoin]
      have : x ++ [a, b] ++ pyJoin [a, b] (y :: rest) =
          x ++ a :: b :: pyJoin [a, b] (y :: rest) := by
        rw [List.append_assoc]; rfl
      rw [this, pySplit2_append_sep a b x _ (h x (List.mem_cons_self _ _))]
      rw [ih (by simp) (fun z hz => h z (List.mem_cons_of_mem _ hz))]

theorem filter_pyJoin (p : Char → Bool) (sep : PyStr) (l : List PyStr) :
    (pyJoin sep l).filter p = pyJoin (sep.filter p) (l.map (fun x => x.filter p)) := by
  induction l with
  | nil => rfl
  | cons x xs ih =>
    cases xs with
    | nil =>
      show (pyJoin sep [x]).filter p = pyJoin (sep.filter p) [x.filter p]
      simp only [pyJoin]
    | cons y rest =>
      rw [List.map_cons, List.map_cons]
      simp only [pyJoin]
      rw [List.filter_append, List.filter_append, ih, List.map_cons]

theorem isPrefixOf_self_append (p t : PyStr) : p.isPrefixOf (p ++ t) = true := by
  induction p with
  | nil => rw [List.nil_append]; cases t <;> rfl
  | cons a p2 ih => simp [List.isPrefixOf, ih]

theorem mem_of_isPrefixOf (p s : PyStr) (h : p.isPrefixOf s = true) :
    ∀ c ∈ p, c ∈ s := by
  induction p generalizing s with
  | nil => intro c hc; simp at hc
  | cons a p2 ih =>
    cases s with
    | nil => simp [List.isPrefixOf] at h
    | cons b s2 =>
      simp only [List.isPrefixOf, Bool.and_eq_true, beq_iff_eq] at h
      intro c hc
      rcases List.mem_cons.mp hc with hc | hc
      · subst hc; rw [h.1]; exact List.mem_cons_self _ _
      · exact List.mem_cons_of_mem _ (ih s2 h.2 c hc)

theorem pyReplaceAux_not_mem (pat rep : PyStr) (p : Char) (hp : p ∈ pat) :
    ∀ fuel s, p ∉ s → pyReplaceAux pat rep fuel s = s := by
  intro fuel
  induction fuel with
  | zero => intro s _; rfl
  | succ fuel ih =>
    intro s hs
    cases s with
    | nil => rfl
    | cons c rest =>
      rw [pyReplaceAux]
      have hpre : ¬ (pat.isPrefixOf (c :: rest) = true) := by
        intro hcon
        exact hs (mem_of_isPrefixOf pat (c :: rest) hcon p hp)
      rw [if_neg hpre]
      simp only [List.mem_cons, not_or] at hs
      rw [ih rest hs.2]

theorem pyReplace_head (pat rep rest : PyStr) (hc : Char) (hpat : pat = hc :: pat.tail)
    (p : Char) (hp : p ∈ pat) (hrest : p ∉ rest) :
    pyReplace pat rep (pat ++ rest) = rep ++ rest := by
  unfold pyReplace
  rw [hpat, List.cons_append, List.length_cons, pyReplaceAux]
  rw [← hpat, ← List.cons_append, ← hpat]
  rw [if_pos (isPrefixOf_self_append pat rest)]
  rw [List.drop_left]
  rw [pyReplaceAux_not_mem pat rep p hp _ rest hrest]

theorem count_apos_pyReprList_pos (L : List PyStr) (hL : L ≠ []) :
    1 ≤ (pyReprList L).count apos := by
  cases L with
  | nil => exact absurd rfl hL
  | cons x xs =>
    unfold pyReprList
    rw [List.map_cons]
    obtain ⟨t, ht⟩ := pyJoin_cons_structure [',', ' '] (pyRepr x) (xs.map pyRepr)
    rw [ht]
    rw [List.count_append, List.count_cons, List.count_append]
    have := count_apos_pyRepr x
    omega

theorem filter_ne_apos_pyRepr_clean (y : PyStr) (hy : cleanLabel y) :
    (pyRepr y).filter (fun c => c != apos) = y := by
  rw [pyRepr_clean y hy]
  rw [List.filter_append, List.filter_cons]
  have h2 : y.filter (fun c => c != apos) = y := by
    apply List.filter_eq_self.mpr
    intro c hc
    simp only [bne_iff_ne, ne_eq]
    intro he
    subst he
    exact cleanLabel_not_mem y hy apos (by decide) hc
  simp [h2]

theorem processError_allowedValues_req (i : Nat) (f : PyStr) (rec : Record)
    (d : Diag) (hbrf : ('[' : Char) ∉ f)
    (h : processError i (.reqV f rec) = some d) : d.allowedValues = [] := by
  have h0 : List.headD (errLines (Violation.reqV f rec)) [] =
      pyRepr f ++ (" is a required property").data := rfl
  have h3 : findallBracket (("At row ").data ++ natDigits (i + 2) ++ (": ").data ++
      (pyRepr f ++ (" is a required property").data)) = [] := by
    apply findallDelimAux_none_of_not_mem
    intro hmem
    rcases List.mem_append.mp hmem with hmem | hmem
    · rcases List.mem_append.mp hmem with hmem | hmem
      · rcases List.mem_append.mp hmem with hmem | hmem
        · exact absurd hmem (by decide)
        · exact natDigits_not_mem (i + 2) '[' (by decide) hmem
      · exact absurd hmem (by decide)
    · rcases List.mem_append.mp hmem with hmem | hmem
      · rcases mem_pyRepr _ _ hmem with hx | hx | hx | hx
        · exact absurd hx (by decide)
        · exact absurd hx (by decide)
        · exact absurd hx (by decide)
        · exact hbrf hx
      · exact absurd hmem (by decide)
  cases hqq : findallQuote (pyRepr f ++ (" is a required property").data) with
  | nil =>
    have hnone : processError i (.reqV f rec) = none := by
      simp only [processError, h0, hqq]
    rw [hnone] at h
    exact Option.noConfusion h
  | cons w ws =>
    simp only [processError, h0, hqq, h3, Option.some.injEq] at h
    rw [← h]

theorem processError_row (i : Nat) (e : Violation) (d : Diag)
    (h : processError i e = some d) : d.row = i + 2 := by
  simp only [processError] at h
  split at h
  · cases h
  · rw [Option.some.injEq] at h
    subst h
    rfl

theorem processError_fields_len (i : Nat) (e : Violation) (d : Diag)
    (h : processError i e = some d) : d.fields.length ≤ 1 := by
  simp only [processError] at h
  split at h
  · cases h
  · rw [Option.some.injEq] at h
    subst h
    show (match findallBracket _ with
      | [] => ([] : List PyStr)
      | t :: _ => [(pySplit2 ',' ' ' (t.filter (fun c => c != apos))).headD []]).length ≤ 1
    split <;> simp

theorem mem_pyRepr_clean_cases (c : Char) (y : PyStr) (hy : cleanLabel y)
    (hc : c.isAlphanum = false) (h1 : ¬ c = apos) (h2 : ¬ c = dq)
    (h3 : ¬ c = bslash) : c ∉ pyRepr y := by
  intro hmem
  rcases mem_pyRepr c y hmem with h | h | h | h
  · exact h1 h
  · exact h2 h
  · exact h3 h
  · exact cleanLabel_not_mem y hy c hc h

theorem processError_allowedValues_enum (i : Nat) (f v : PyStr) (L : List PyStr)
    (d : Diag) (hL : ∀ x ∈ L, cleanLabel x) (hLne : L ≠ [])
    (hv : ('[' : Char) ∉ v)
    (h : processError i (.enumV f v L) = some d) : d.allowedValues = L := by
  have h0 : List.headD (errLines (Violation.enumV f v L)) [] =
      pyRepr v ++ (" is not one of ").data ++ pyReprList L := rfl
  have hpre : ('[' : Char) ∉ (("At row ").data ++ natDigits (i + 2) ++ (": ").data ++
      (pyRepr v ++ (" is not one of ").data)) := by
    intro hmem
    rcases List.mem_append.mp hmem with hmem | hmem
    · rcases List.mem_append.mp hmem with hmem | hmem
      · rcases List.mem_append.mp hmem with hmem | hmem
        · exact absurd hmem (by decide)
        · exact natDigits_not_mem (i + 2) '[' (by decide) hmem
      · exact absurd hmem (by decide)
    · rcases List.mem_append.mp hmem with hmem | hmem
      · rcases mem_pyRepr _ _ hmem with hx | hx | hx | hx
        · exact absurd hx (by decide)
        · exact absurd hx (by decide)
        · exact absurd hx (by decide)
        · exact hv hx
      · exact absurd hmem (by decide)
  have hmid : (']' : Char) ∉ pyJoin [',', ' '] (L.map pyRepr) := by
    intro hmem
    rcases mem_pyJoin _ _ _ hmem with hx | ⟨x, hx, hcx⟩
    · exact absurd hx (by decide)
    · obtain ⟨y, hy, hxy⟩ := List.mem_map.mp hx
      subst hxy
      exact mem_pyRepr_clean_cases ']' y (hL y hy) (by decide) (by decide)
        (by decide) (by decide) hcx
  have hbr : findallBracket (("At row ").data ++ natDigits (i + 2) ++ (": ").data ++
      (pyRepr v ++ (" is not one of ").data ++ pyReprList L)) =
      [pyJoin [',', ' '] (L.map pyRepr)] := by
    have hcap := findall_first_capture '[' ']'
      (("At row ").data ++ natDigits (i + 2) ++ (": ").data ++
        (pyRepr v ++ (" is not one of ").data))
      (pyJoin [',', ' '] (L.map pyRepr)) [] hpre hmid
    have hshape : ("At row ").data ++ natDigits (i + 2) ++ (": ").data ++
        (pyRepr v ++ (" is not one of ").data ++ pyReprList L) =
        (("At row ").data ++ natDigits (i + 2) ++ (": ").data ++
          (pyRepr v ++ (" is not one of ").data)) ++
          '[' :: (pyJoin [',', ' '] (L.map pyRepr) ++ ']' :: []) := by
      simp only [pyReprList, List.append_assoc, List.cons_append, List.nil_append]
    unfold findallBracket
    rw [hshape, hcap]
    rfl
  have hfilter : (pyJoin [',', ' '] (L.map pyRepr)).filter (fun c => c != apos) =
      pyJoin [',', ' '] L := by
    rw [filter_pyJoin]
    have hsep : ([',', ' '].filter (fun c => c != apos)) = [',', ' '] := by decide
    rw [hsep, List.map_map]
    have hmc : ∀ x ∈ L, ((fun l => l.filter (fun c => c != apos)) ∘ pyRepr) x = x :=
      fun x hx => filter_ne_apos_pyRepr_clean x (hL x hx)
    rw [List.map_congr_left hmc]
    simp
  have hsplit : pySplit2 ',' ' ' (pyJoin [',', ' '] L) = L :=
    pyJoin_split_roundtrip ',' ' ' L hLne
      (fun x hx => cleanLabel_not_mem x (hL x hx) ',' (by decide))
  cases hqq : findallQuote (pyRepr v ++ (" is not one of ").data ++ pyReprList L) with
  | nil =>
    have hnone : processError i (.enumV f v L) = none := by
      simp only [processError, h0, hqq]
    rw [hnone] at h
    exact Option.noConfusion h
  | cons w ws =>
    simp only [processError, h0, hqq, hbr, hfilter, hsplit, Option.some.injEq] at h
    rw [← h]

theorem processError_req_isSome (i : Nat) (f : PyStr) (rec : Record)
    (hap : apos ∉ f) : (processError i (.reqV f rec)).isSome = true := by
  have h0 : List.headD (errLines (Violation.reqV f rec)) [] =
      pyRepr f ++ (" is a required property").data := rfl
  have hcount : 2 ≤ (pyRepr f ++ (" is a required property").data).count apos := by
    rw [List.count_append]
    have : 2 ≤ (pyRepr f).count apos := by
      unfold pyRepr
      rw [if_neg (fun hcon => hap hcon.1)]
      exact count_apos_pyReprAux_apos f
    omega
  obtain ⟨w, ws, hq⟩ : ∃ w ws,
      findallQuote (pyRepr f ++ (" is a required property").data) = w :: ws := by
    cases hqq : findallQuote (pyRepr f ++ (" is a required property").data) with
    | nil => exact absurd hqq (findallQuote_ne_nil _ hcount)
    | cons a as => exact ⟨a, as, rfl⟩
  simp only [processError, h0, hq]
  rfl

theorem processError_enum_isSome (i : Nat) (f v : PyStr) (L : List PyStr)
    (hLne : L ≠ []) : (processError i (.enumV f v L)).isSome = true := by
  have h0 : List.headD (errLines (Violation.enumV f v L)) [] =
      pyRepr v ++ (" is not one of ").data ++ pyReprList L := rfl
  have hcount : 2 ≤ (pyRepr v ++ (" is not one of ").data ++ pyReprList L).count apos := by
    rw [List.count_append, List.count_append]
    have c1 := count_apos_pyRepr v
    have c2 := count_apos_pyReprList_pos L hLne
    omega
  obtain ⟨w, ws, hq⟩ : ∃ w ws,
      findallQuote (pyRepr v ++ (" is not one of ").data ++ pyReprList L) = w :: ws := by
    cases hqq : findallQuote (pyRepr v ++ (" is not one of ").data ++ pyReprList L) with
    | nil => exact absurd hqq (findallQuote_ne_nil _ hcount)
    | cons a as => exact ⟨a, as, rfl⟩
  simp only [processError, h0, hq]
  rfl

theorem firstEnumViolation_shape (props : List (PyStr × FieldConstraint))
    (rec : Record) (e : Violation) (h : firstEnumViolation props rec = some e) :
    ∃ f v L, e = .enumV f v L ∧ (f, FieldConstraint.mk (some L)) ∈ props ∧
      rec.lookup f = some v ∧ v ∉ L := by
  induction props with
  | nil => simp [firstEnumViolation] at h
  | cons p rest ih =>
    obtain ⟨f, c⟩ := p
    rw [firstEnumViolation] at h
    split at h
    next v l hl he =>
      split at h
      · obtain ⟨f2, v2, L2, he2, hmem, hlk, hnm⟩ := ih h
        exact ⟨f2, v2, L2, he2, List.mem_cons_of_mem _ hmem, hlk, hnm⟩
      · rw [Option.some.injEq] at h
        subst h
        obtain ⟨ce⟩ := c
        simp only at he
        subst he
        exact ⟨f, v, l, rfl, List.mem_cons_self _ _, hl, by assumption⟩
    next =>
      obtain ⟨f2, v2, L2, he2, hmem, hlk, hnm⟩ := ih h
      exact ⟨f2, v2, L2, he2, List.mem_cons_of_mem _ hmem, hlk, hnm⟩

theorem firstReqViolation_shape (req : List PyStr) (rec : Record) (e : Violation)
    (h : firstReqViolation req rec = some e) :
    ∃ f, e = .reqV f rec ∧ f ∈ req ∧ rec.lookup f = none := by
  induction req with
  | nil => simp [firstReqViolation] at h
  | cons f rest ih =>
    rw [firstReqViolation] at h
    split at h
    · obtain ⟨f2, he2, hmem, hlk⟩ := ih h
      exact ⟨f2, he2, List.mem_cons_of_mem _ hmem, hlk⟩
    · rw [Option.some.injEq] at h
      subst h
      refine ⟨f, rfl, List.mem_cons_self _ _, ?_⟩
      rw [← Option.not_isSome_iff_eq_none]
      assumption

theorem jsValidate_shape (s : JsonSchema) (rec : Record) (e : Violation)
    (h : jsValidate s rec = some e) :
    (∃ f, e = .reqV f rec ∧ f ∈ s.required ∧ rec.lookup f = none) ∨
    (∃ f v L, e = .enumV f v L ∧ (f, FieldConstraint.mk (some L)) ∈ s.properties ∧
      rec.lookup f = some v ∧ v ∉ L) := by
  unfold jsValidate at h
  split at h
  next e2 he2 =>
    rw [Option.some.injEq] at h
    subst h
    exact Or.inl (firstReqViolation_shape _ _ _ he2)
  next => exact Or.inr (firstEnumViolation_shape _ _ _ h)

theorem validateRows_isSome (s : JsonSchema)
    (hreq : ∀ f ∈ s.required, apos ∉ f)
    (henum : ∀ p ∈ s.properties, ¬ p.2.enum = some []) :
    ∀ rows i, (validateRows s i rows).isSome = true := by
  intro rows
  induction rows with
  | nil => intro i; rfl
  | cons rec rest ih =>
    intro i
    cases hjs : jsValidate s rec with
    | none => simp only [validateRows, hjs]; exact ih (i + 1)
    | some e =>
      have hpe : (processError i e).isSome = true := by
        rcases jsValidate_shape s rec e hjs with ⟨f, he, hf, _⟩ | ⟨f, v, L, he, hp, _, _⟩
        · subst he
          exact processError_req_isSome i f rec (hreq f hf)
        · subst he
          exact processError_enum_isSome i f v L (fun he2 => henum _ hp (by subst he2; rfl))
      cases hpeq : processError i e with
      | none => rw [hpeq] at hpe; simp at hpe
      | some d =>
        have h2 := ih (i + 1)
        cases hvr : validateRows s (i + 1) rest with
        | none => rw [hvr] at h2; simp at h2
        | some ds => simp only [validateRows, hjs, hpeq, hvr]; rfl

theorem validateRows_length (s : JsonSchema) (rows : List Record) :
    ∀ i l, validateRows s i rows = some l →
      l.length = rows.countP (fun rec => (jsValidate s rec).isSome) := by
  induction rows with
  | nil =>
    intro i l h
    simp only [validateRows, Option.some.injEq] at h
    subst h
    rfl
  | cons rec rest ih =>
    intro i l h
    cases hjs : jsValidate s rec with
    | none =>
      simp only [validateRows, hjs] at h
      rw [List.countP_cons]
      simp only [hjs, Option.isSome_none, Bool.false_eq_true, if_false, Nat.add_zero]
      exact ih (i + 1) l h
    | some e =>
      simp only [validateRows, hjs] at h
      cases hpeq : processError i e with
      | none => simp only [hpeq] at h; cases h
      | some d =>
        simp only [hpeq] at h
        cases hvr : validateRows s (i + 1) rest with
        | none => simp only [hvr] at h; cases h
        | some ds =>
          simp only [hvr, Option.some.injEq] at h
          subst h
          rw [List.countP_cons]
          simp only [hjs, Option.isSome_some, if_true, List.length_cons]
          rw [ih (i + 1) ds hvr]

theorem validateRows_mem (s : JsonSchema) (rows : List Record) :
    ∀ i l, validateRows s i rows = some l →
      ∀ d ∈ l, ∃ j rec e, rows.get? j = some rec ∧ jsValidate s rec = some e ∧
        processError (i + j) e = some d := by
  induction rows with
  | nil =>
    intro i l h d hd
    simp only [validateRows, Option.some.injEq] at h
    subst h
    simp at hd
  | cons rec rest ih =>
    intro i l h d hd
    cases hjs : jsValidate s rec with
    | none =>
      simp only [validateRows, hjs] at h
      obtain ⟨j, rec2, e2, hg, hjs2, hpe2⟩ := ih (i + 1) l h d hd
      refine ⟨j + 1, rec2, e2, by simpa using hg, hjs2, ?_⟩
      have harith : i + (j + 1) = i + 1 + j := by omega
      rw [harith]
      exact hpe2
    | some e =>
      simp only [validateRows, hjs] at h
      cases hpeq : processError i e with
      | none => simp only [hpeq] at h; cases h
      | some d0 =>
        simp only [hpeq] at h
        cases hvr : validateRows s (i + 1) rest with
        | none => simp only [hvr] at h; cases h
        | some ds =>
          simp only [hvr, Option.some.injEq] at h
          subst h
          rcases List.mem_cons.mp hd with hd | hd
          · subst hd
            exact ⟨0, rec, e, rfl, hjs, by simpa using hpeq⟩
          · obtain ⟨j, rec2, e2, hg, hjs2, hpe2⟩ := ih (i + 1) ds hvr d hd
            refine ⟨j + 1, rec2, e2, by simpa using hg, hjs2, ?_⟩
            have harith : i + (j + 1) = i + 1 + j := by omega
            rw [harith]
            exact hpe2

/- ---------------------------------------------------------------------
Lemmas about the depth-first and breadth-first resolvers.
--------------------------------------------------------------------- -/

theorem dfsList_mem_imp (g : SchemaGraph) (k : String) :
    ∀ fuel pending path finished out,
      dfsList g k fuel pending path finished = .ok out →
      ∀ x ∈ out, x ∈ finished ∨ x ∉ path := by
  intro fuel
  induction fuel with
  | zero => intro pending path finished out h; cases h
  | succ fuel ih =>
    intro pending path finished out h
    cases pending with
    | nil =>
      rw [dfsList] at h
      cases h
      intro x hx
      exact Or.inl hx
    | cons v vs =>
      rw [dfsList] at h
      by_cases hvp : v ∈ path
      · rw [if_pos hvp] at h; cases h
      · rw [if_neg hvp] at h
        by_cases hvf : v ∈ finished
        · rw [if_pos hvf] at h
          exact ih vs path finished out h
        · rw [if_neg hvf] at h
          cases hsub : dfsList g k fuel (outNeighbors g k v) (v :: path) finished with
          | error e => simp only [hsub] at h; exact Except.noConfusion h
          | ok fin2 =>
            simp only [hsub] at h
            intro x hx
            rcases ih vs path (fin2 ++ [v]) out h x hx with hx2 | hx2
            · rcases List.mem_append.mp hx2 with hx3 | hx3
              · rcases ih _ _ _ _ hsub x hx3 with hx4 | hx4
                · exact Or.inl hx4
                · exact Or.inr (fun hp => hx4 (List.mem_cons_of_mem _ hp))
              · rw [List.mem_singleton] at hx3
                subst hx3
                exact Or.inr hvp
            · exact Or.inr hx2

theorem dfsList_extends (g : SchemaGraph) (k : String) :
    ∀ fuel pending path finished out,
      dfsList g k fuel pending path finished = .ok out →
      ∃ t, out = finished ++ t := by
  intro fuel
  induction fuel with
  | zero => intro pending path finished out h; cases h
  | succ fuel ih =>
    intro pending path finished out h
    cases pending with
    | nil =>
      rw [dfsList] at h
      cases h
      exact ⟨[], (List.append_nil _).symm⟩
    | cons v vs =>
      rw [dfsList] at h
      by_cases hvp : v ∈ path
      · rw [if_pos hvp] at h; cases h
      · rw [if_neg hvp] at h
        by_cases hvf : v ∈ finished
        · rw [if_pos hvf] at h
          exact ih vs path finished out h
        · rw [if_neg hvf] at h
          cases hsub : dfsList g k fuel (outNeighbors g k v) (v :: path) finished with
          | error e => simp only [hsub] at h; exact Except.noConfusion h
          | ok fin2 =>
            simp only [hsub] at h
            obtain ⟨t1, ht1⟩ := ih _ _ _ _ hsub
            obtain ⟨t2, ht2⟩ := ih _ _ _ _ h
            refine ⟨t1 ++ [v] ++ t2, ?_⟩
            rw [ht2, ht1]
            simp [List.append_assoc]

theorem dfsList_nodup (g : SchemaGraph) (k : String) :
    ∀ fuel pending path finished out,
      dfsList g k fuel pending path finished = .ok out →
      finished.Nodup → out.Nodup := by
  intro fuel
  induction fuel with
  | zero => intro pending path finished out h; cases h
  | succ fuel ih =>
    intro pending path finished out h hnd
    cases pending with
    | nil =>
      rw [dfsList] at h
      cases h
      exact hnd
    | cons v vs =>
      rw [dfsList] at h
      by_cases hvp : v ∈ path
      · rw [if_pos hvp] at h; cases h
      · rw [if_neg hvp] at h
        by_cases hvf : v ∈ finished
        · rw [if_pos hvf] at h
          exact ih vs path finished out h hnd
        · rw [if_neg hvf] at h
          cases hsub : dfsList g k fuel (outNeighbors g k v) (v :: path) finished with
          | error e => simp only [hsub] at h; exact Except.noConfusion h
          | ok fin2 =>
            simp only [hsub] at h
            have hfin2 : fin2.Nodup := ih _ _ _ _ hsub hnd
            have hvnotin : v ∉ fin2 := by
              intro hvc
              rcases dfsList_mem_imp g k fuel _ _ _ _ hsub v hvc with hc | hc
              · exact hvf hc
              · exact hc (List.mem_cons_self _ _)
            apply ih vs path (fin2 ++ [v]) out h
            rw [List.nodup_append]
            refine ⟨hfin2, List.nodup_singleton v, ?_⟩
            intro a ha hb
            rw [List.mem_singleton] at hb
            subst hb
            exact hvnotin ha

theorem dfsList_pending_mem (g : SchemaGraph) (k : String) :
    ∀ fuel pending path finished out,
      dfsList g k fuel pending path finished = .ok out →
      ∀ w ∈ pending, w ∈ out := by
  intro fuel
  induction fuel with
  | zero => intro pending path finished out h; cases h
  | succ fuel ih =>
    intro pending path finished out h
    cases pending with
    | nil => intro w hw; simp at hw
    | cons v vs =>
      rw [dfsList] at h
      by_cases hvp : v ∈ path
      · rw [if_pos hvp] at h; cases h
      · rw [if_neg hvp] at h
        by_cases hvf : v ∈ finished
        · rw [if_pos hvf] at h
          intro w hw
          rcases List.mem_cons.mp hw with hw | hw
          · subst hw
            obtain ⟨t, ht⟩ := dfsList_extends g k fuel vs path finished out h
            rw [ht]
            exact List.mem_append_left _ hvf
          · exact ih vs path finished out h w hw
        · rw [if_neg hvf] at h
          cases hsub : dfsList g k fuel (outNeighbors g k v) (v :: path) finished with
          | error e => simp only [hsub] at h; exact Except.noConfusion h
          | ok fin2 =>
            simp only [hsub] at h
            intro w hw
            rcases List.mem_cons.mp hw with hw | hw
            · subst hw
              obtain ⟨t, ht⟩ := dfsList_extends g k fuel vs path (fin2 ++ [w]) out h
              rw [ht]
              apply List.mem_append_left
              exact List.mem_append_right _ (List.mem_singleton_self w)
            · exact ih vs path (fin2 ++ [v]) out h w hw

theorem dfsList_closedBelow (g : SchemaGraph) (k : String) :
    ∀ fuel pending path finished out,
      dfsList g k fuel pending path finished = .ok out →
      closedBelow g k finished → closedBelow g k out := by
  intro fuel
  induction fuel with
  | zero => intro pending path finished out h; cases h
  | succ fuel ih =>
    intro pending path finished out h hcb
    cases pending with
    | nil =>
      rw [dfsList] at h
      cases h
      exact hcb
    | cons v vs =>
      rw [dfsList] at h
      by_cases hvp : v ∈ path
      · rw [if_pos hvp] at h; cases h
      · rw [if_neg hvp] at h
        by_cases hvf : v ∈ finished
        · rw [if_pos hvf] at h
          exact ih vs path finished out h hcb
        · rw [if_neg hvf] at h
          cases hsub : dfsList g k fuel (outNeighbors g k v) (v :: path) finished with
          | error e => simp only [hsub] at h; exact Except.noConfusion h
          | ok fin2 =>
            simp only [hsub] at h
            have hcb2 : closedBelow g k fin2 := ih _ _ _ _ hsub hcb
            have hcb3 : closedBelow g k (fin2 ++ [v]) := by
              intro l1 u l2 hsplit w hw
              rcases List.eq_nil_or_concat l2 with rfl | ⟨l2x, a, hl2⟩
              · have hinj := List.append_inj' (hsplit : fin2 ++ [v] = l1 ++ [u]) rfl
                obtain ⟨hfin, huv⟩ := hinj
                rw [List.cons.injEq] at huv
                subst hfin
                rw [← huv.1] at hw
                exact dfsList_pending_mem g k fuel _ _ _ _ hsub w hw
              · subst hl2
                rw [List.concat_eq_append] at hsplit
                have : fin2 ++ [v] = (l1 ++ u :: l2x) ++ [a] := by
                  rw [hsplit]; simp [List.append_assoc]
                obtain ⟨hfin, _⟩ := List.append_inj' this rfl
                exact hcb2 l1 u l2x hfin w hw
            exact ih vs path (fin2 ++ [v]) out h hcb3

theorem bfsComponents_nodup (g : SchemaGraph) (k : String) :
    ∀ fuel queue acc out,
      bfsComponents g k fuel queue acc = .ok out → acc.Nodup → out.Nodup := by
  intro fuel
  induction fuel with
  | zero => intro queue acc out h; cases h
  | succ fuel ih =>
    intro queue acc out h hnd
    cases queue with
    | nil =>
      rw [bfsComponents] at h
      cases h
      exact hnd
    | cons u qs =>
      rw [bfsComponents] at h
      by_cases hu : u ∈ acc
      · rw [if_pos hu] at h
        exact ih qs acc out h hnd
      · rw [if_neg hu] at h
        apply ih _ _ _ h
        rw [List.nodup_append]
        refine ⟨hnd, List.nodup_singleton u, ?_⟩
        intro a ha hb
        rw [List.mem_singleton] at hb
        subst hb
        exact hu ha

theorem getOrderedModelNodes_ok_struct (g : SchemaGraph) (root k : String)
    (l : List String) (h : getOrderedModelNodes g root k = .ok l) :
    ∃ fuel, dfsList g k fuel (outNeighbors g k root) [root] [] = Except.ok l := by
  unfold getOrderedModelNodes at h
  cases hget : get_descendants_by_edge_type g root k with
  | error e => rw [hget] at h; exact Except.noConfusion h
  | ok dl =>
    simp only [hget] at h
    rw [Except.ok.injEq] at h
    unfold get_descendants_by_edge_type at hget
    by_cases hroot : root ∈ g.nodes
    · rw [if_pos hroot] at hget
      cases hdfs : dfsList g k (graphFuel g) [root] [] [] with
      | error e => simp only [hdfs] at hget; exact Except.noConfusion hget
      | ok post =>
        simp only [hdfs] at hget
        rw [Except.ok.injEq] at hget
        cases hfg : graphFuel g with
        | zero => rw [hfg] at hdfs; exact Except.noConfusion hdfs
        | succ m =>
          rw [hfg, dfsList] at hdfs
          rw [if_neg (List.not_mem_nil root)] at hdfs
          rw [if_neg (List.not_mem_nil root)] at hdfs
          cases hsub : dfsList g k m (outNeighbors g k root) [root] [] with
          | error e => simp only [hsub] at hdfs; exact Except.noConfusion hdfs
          | ok fin2 =>
            simp only [hsub] at hdfs
            cases m with
            | zero => exact Except.noConfusion hdfs
            | succ m2 =>
              rw [dfsList] at hdfs
              rw [Except.ok.injEq] at hdfs
              have hroot2 : root ∉ fin2 := by
                intro hc
                rcases dfsList_mem_imp g k _ _ _ _ _ hsub root hc with hc2 | hc2
                · simp at hc2
                · exact hc2 (List.mem_singleton_self root)
              have hl : l = fin2 := by
                rw [← h, ← hget, ← hdfs]
                rw [List.filter_reverse, List.reverse_reverse]
                rw [List.filter_append]
                have hfr : [root].filter (fun x => x != root) = [] := by simp
                rw [hfr, List.append_nil]
                apply List.filter_eq_self.mpr
                intro x hx
                simp only [bne_iff_ne, ne_eq, decide_eq_true_eq]
                intro he
                subst he
                exact hroot2 hx
              rw [hl]
              exact ⟨m2 + 1, hsub⟩
    · rw [if_neg hroot] at hget
      exact Except.noConfusion hget

theorem indexOf_lt_of_split (l l1 : List String) (u : String) (l2 : List String)
    (w : String) (hnd : l.Nodup) (hsplit : l = l1 ++ u :: l2) (hw : w ∈ l1) :
    l.indexOf w < l.indexOf u := by
  subst hsplit
  have hu1 : u ∉ l1 := by
    rw [List.nodup_append] at hnd
    exact fun hc => hnd.2.2 hc (List.mem_cons_self _ _)
  rw [List.indexOf_append_of_mem hw, List.indexOf_append_of_not_mem hu1]
  rw [List.indexOf_cons_self]
  have := List.indexOf_lt_length.mpr hw
  omega

theorem get_component_requirements_ok_nodup (g : SchemaGraph) (s : String)
    (l : List String) (h : get_component_requirements g s = .ok l) : l.Nodup := by
  unfold get_component_requirements requiredComponents at h
  by_cases hs : s ∈ g.nodes
  · rw [if_pos hs] at h
    cases hbfs : bfsComponents g "requiresComponent" (graphFuel g) [s] [] with
    | error e => simp only [hbfs] at h; exact Except.noConfusion h
    | ok bl =>
      simp only [hbfs] at h
      rw [Except.ok.injEq] at h
      subst h
      exact (bfsComponents_nodup g _ _ _ _ _ hbfs List.nodup_nil).filter _
  · rw [if_neg hs] at h
    exact Except.noConfusion h

/- ---------------------------------------------------------------------
Remaining helper lemmas for the claims.
--------------------------------------------------------------------- -/

theorem mem_of_lookup_eq_some (rec : Record) (f v : PyStr)
    (h : rec.lookup f = some v) : (f, v) ∈ rec := by
  induction rec with
  | nil => simp [List.lookup] at h
  | cons p rest ih =>
    obtain ⟨k, b⟩ := p
    rw [List.lookup] at h
    cases hek : (f == k) with
    | true =>
      rw [hek] at h
      rw [Option.some.injEq] at h
      subst h
      rw [beq_iff_eq] at hek
      subst hek
      exact List.mem_cons_self _ _
    | false =>
      rw [hek] at h
      exact List.mem_cons_of_mem _ (ih h)

theorem mem_outNeighbors_of_edge (g : SchemaGraph) (k u v : String)
    (h : (u, k, v) ∈ g.edges) : v ∈ outNeighbors g k u := by
  unfold outNeighbors
  exact List.mem_map.mpr ⟨(u, k, v), List.mem_filter.mpr ⟨h, by simp⟩, rfl⟩

theorem closedBelow_nil (g : SchemaGraph) (k : String) : closedBelow g k [] := by
  intro l1 u l2 hsplit
  exact absurd hsplit.symm (List.append_ne_nil_of_right_ne_nil l1 (List.cons_ne_nil u l2))

/- ---------------------------------------------------------------------
Claim theorems.
--------------------------------------------------------------------- -/

/-- C3 (counterexample): in the chain Patient requires Diagnosis requires
CancerType, getOrderedModelNodes returns the leaf-first sequence
CancerType, Diagnosis; for the edge Diagnosis to CancerType the source is
NOT placed strictly before the target, refuting the claim as stated. -/
theorem C3_counterexample :
    getOrderedModelNodes exGraph "Patient" "requiresDependency" =
      Except.ok ["CancerType", "Diagnosis"] ∧
    ("Diagnosis", "requiresDependency", "CancerType") ∈ exGraph.edges ∧
    ¬ placedBefore ["CancerType", "Diagnosis"] "Diagnosis" "CancerType" :=
  ⟨by decide, by decide, by decide⟩

/-- C3 (amended): whenever getOrderedModelNodes succeeds, the returned
sequence is ordered the other way round from the claim: for every edge
(u, R, v) with u in the sequence, v is also in the sequence and v is
placed strictly BEFORE u (leaf requirements first, the convention the spec
pins); targets of the root's own R-edges always appear in the sequence. -/
theorem C3_amended (g : SchemaGraph) (root k : String) (l : List String)
    (h : getOrderedModelNodes g root k = .ok l) :
    (∀ u ∈ l, ∀ v, (u, k, v) ∈ g.edges → v ∈ l ∧ placedBefore l v u) ∧
    (∀ v, (root, k, v) ∈ g.edges → v ∈ l) := by
  obtain ⟨fuel, hsub⟩ := getOrderedModelNodes_ok_struct g root k l h
  have hnd : l.Nodup := dfsList_nodup g k fuel _ _ _ _ hsub List.nodup_nil
  have hcb : closedBelow g k l :=
    dfsList_closedBelow g k fuel _ _ _ _ hsub (closedBelow_nil g k)
  constructor
  · intro u hu v hedge
    have hvnbr : v ∈ outNeighbors g k u := mem_outNeighbors_of_edge g k u v hedge
    obtain ⟨s1, s2, hsplit⟩ := List.append_of_mem hu
    have hvs1 : v ∈ s1 := hcb s1 u s2 hsplit v hvnbr
    have hvl : v ∈ l := by rw [hsplit]; exact List.mem_append_left _ hvs1
    exact ⟨hvl, indexOf_lt_of_split l s1 u s2 v hnd hsplit hvs1, hvl, hu⟩
  · intro v hedge
    exact dfsList_pending_mem g k fuel _ _ _ _ hsub v
      (mem_outNeighbors_of_edge g k root v hedge)

/-- C3 (amended, witness): on the concrete chain, the edge from Diagnosis
to CancerType has its target in the sequence, placed before its source. -/
theorem C3_amended_witness :
    "CancerType" ∈ ["CancerType", "Diagnosis"] ∧
    placedBefore ["CancerType", "Diagnosis"] "CancerType" "Diagnosis" :=
  (C3_amended exGraph "Patient" "requiresDependency" ["CancerType", "Diagnosis"]
    (by decide)).1 "Diagnosis" (by decide) "CancerType" (by decide)

/-- C6: whenever getOrderedModelNodes succeeds, the returned sequence
never contains the root and never contains a label twice. -/
theorem C6_no_root_no_dup (g : SchemaGraph) (root k : String) (l : List String)
    (h : getOrderedModelNodes g root k = .ok l) : root ∉ l ∧ l.Nodup := by
  obtain ⟨fuel, hsub⟩ := getOrderedModelNodes_ok_struct g root k l h
  constructor
  · intro hc
    rcases dfsList_mem_imp g k fuel _ _ _ _ hsub root hc with hc2 | hc2
    · simp at hc2
    · exact hc2 (List.mem_singleton_self root)
  · exact dfsList_nodup g k fuel _ _ _ _ hsub List.nodup_nil

/-- C6 (witness): on the concrete chain the result omits the root Patient
and has no duplicates. -/
theorem C6_witness :
    "Patient" ∉ ["CancerType", "Diagnosis"] ∧
    (["CancerType", "Diagnosis"] : List String).Nodup :=
  C6_no_root_no_dup exGraph "Patient" "requiresDependency"
    ["CancerType", "Diagnosis"] (by decide)

/-- C8: get_component_requirements is deterministic, so a second call on
the same source against the same graph returns the same sequence, and any
returned sequence is free of duplicates. -/
theorem C8_idempotent_nodup (g : SchemaGraph) (s : String) (l : List String)
    (h : get_component_requirements g s = .ok l) :
    get_component_requirements g s = .ok l ∧ l.Nodup :=
  ⟨h, get_component_requirements_ok_nodup g s l h⟩

/-- C8 (witness): on the requiresComponent diamond the requirements of A
are B then C, a duplicate-free sequence. -/
theorem C8_witness :
    get_component_requirements exCompGraph "A" = Except.ok ["B", "C"] ∧
    (["B", "C"] : List String).Nodup :=
  C8_idempotent_nodup exCompGraph "A" ["B", "C"] (by decide)

/-- C1 (counterexample): a record that violates the enumerations of both
fields of exSchemaAB, two distinct constraints, contributes exactly one
diagnostic, not two: the underlying validator raises a single error per
record, refuting the within-record batch semantics of the claim. -/
theorem C1_counterexample :
    (∃ v, ((normalizeRecord exRowAB).lookup (("A").data) = some v ∧
      v ∉ [("x").data])) ∧
    (∃ v, ((normalizeRecord exRowAB).lookup (("B").data) = some v ∧
      v ∉ [("y").data])) ∧
    (validateModelManifest exSchemaAB [exRowAB]).map List.length = some 1 :=
  ⟨⟨("bad").data, by decide, by decide⟩,
   ⟨("bad").data, by decide, by decide⟩, by decide⟩

/-- C1 (amended): validation never stops at the first failing record —
when the call returns, the number of diagnostics equals the number of
records on which the validator reports a violation — but each failing
record contributes exactly one diagnostic, however many constraints it
violates. -/
theorem C1_amended (s : JsonSchema) (m : List RawRecord) (l : List Diag)
    (h : validateModelManifest s m = some l) :
    l.length = m.countP (fun r => (jsValidate s (normalizeRecord r)).isSome) := by
  unfold validateModelManifest at h
  rw [validateRows_length s (m.map normalizeRecord) 0 l h]
  rw [List.countP_map]
  rfl

/-- C1 (amended, witness): both records of the two-bad-record manifest
fail and the call returns exactly two diagnostics, one per record. -/
theorem C1_amended_witness :
    ([⟨2, [("F").data], ("B").data, [("A").data]⟩,
      ⟨3, [("F").data], ("C").data, [("A").data]⟩] : List Diag).length =
      exManifestTwoBad.countP
        (fun r => (jsValidate exSchemaF (normalizeRecord r)).isSome) :=
  C1_amended exSchemaF exManifestTwoBad _ (by decide)

/-- C2 (counterexample): with a required field whose name holds an
apostrophe, the validator error message carries a single quote character,
the quoted-substring extraction finds no match, and the Python indexing
raises an IndexError out of the whole call (modelled as none): the call
neither fails with the malformed-schema error nor returns diagnostics. -/
theorem C2_counterexample : validateModelManifest exSchemaApos [[]] = none := by
  decide

/-- C2 (amended): provided every required field name is apostrophe-free
and no property declares an empty enumeration, validateModelManifest
returns normally on every manifest: every per-record validator error is
parsed into a diagnostic without raising. -/
theorem C2_amended (s : JsonSchema)
    (hreq : ∀ f ∈ s.required, apos ∉ f)
    (henum : ∀ p ∈ s.properties, ¬ p.2.enum = some []) :
    ∀ m : List RawRecord, (validateModelManifest s m).isSome = true := by
  intro m
  unfold validateModelManifest
  exact validateRows_isSome s hreq henum (m.map normalizeRecord) 0

/-- C2 (amended, witness): on the clean one-field schema the call returns
normally even for a record whose value holds brackets. -/
theorem C2_amended_witness :
    (validateModelManifest exSchemaF [exRowBracket]).isSome = true :=
  C2_amended exSchemaF (by decide) (by decide) [exRowBracket]

/-- C4 (counterexample): for an enumeration violation whose supplied value
x[1]y holds square brackets, the bracket-extraction regex captures the
value fragment 1 instead of the allowed-value list, so the diagnostic's
allowedValues is not the enumeration of the violated field. -/
theorem C4_counterexample :
    validateModelManifest exSchemaF [exRowBracket] =
      some [⟨2, [("F").data], ("x[1]y").data, [("1").data]⟩] ∧
    (("F").data, FieldConstraint.mk (some [("A").data])) ∈ exSchemaF.properties ∧
    [("1").data] ≠ [("A").data] :=
  ⟨by decide, by decide, by decide⟩

/-- C4 (amended): when enumeration values are alphanumeric and nonempty,
required field names hold no opening bracket, and manifest cells hold no
opening bracket, every returned diagnostic traces to the validator error
of its source record, and its allowedValues component equals the violated
field's declared enumeration when that error is an enumeration mismatch,
and is empty when it is not (a missing-required violation).  This holds in
both renderings of the instance pretty-print, since allowedValues is
extracted from the first message line, which never wraps. -/
theorem C4_amended (s : JsonSchema) (m : List RawRecord) (l : List Diag)
    (hp : ∀ p ∈ s.properties, ∀ L, p.2.enum = some L →
      L ≠ [] ∧ ∀ x ∈ L, cleanLabel x)
    (hr : ∀ f ∈ s.required, ('[' : Char) ∉ f)
    (hm : ∀ r ∈ m, ∀ p ∈ r, ('[' : Char) ∉ normalizeCell p.2)
    (h : validateModelManifest s m = some l) :
    ∀ d ∈ l, ∃ i r e, m.get? i = some r ∧
      jsValidate s (normalizeRecord r) = some e ∧ processError i e = some d ∧
      (∀ f v L, e = .enumV f v L →
        (f, FieldConstraint.mk (some L)) ∈ s.properties ∧ d.allowedValues = L) ∧
      (∀ f rec, e = .reqV f rec → d.allowedValues = []) := by
  unfold validateModelManifest at h
  intro d hd
  obtain ⟨j, rec, e, hget, hjs, hpe⟩ :=
    validateRows_mem s (m.map normalizeRecord) 0 l h d hd
  rw [Nat.zero_add] at hpe
  rw [List.get?_map] at hget
  cases hm0 : m.get? j with
  | none => rw [hm0] at hget; cases hget
  | some r0 =>
    rw [hm0, Option.map_some', Option.some.injEq] at hget
    have hr0m : r0 ∈ m := List.get?_mem hm0
    refine ⟨j, r0, e, hm0, by rw [hget]; exact hjs, hpe, ?_, ?_⟩
    · intro f v L heq
      subst heq
      rcases jsValidate_shape s rec _ hjs with ⟨f2, he2, _, _⟩ |
        ⟨f2, v2, L2, he2, hpmem, hlk, _⟩
      · exact Violation.noConfusion he2
      · injection he2 with hfe hve hLe
        subst hfe
        subst hve
        subst hLe
        have hLprop := hp _ hpmem L rfl
        have hvbr : ('[' : Char) ∉ v := by
          have hmemrec : (f, v) ∈ rec := mem_of_lookup_eq_some rec f v hlk
          rw [← hget] at hmemrec
          obtain ⟨p0, hp0, hp0e⟩ := List.mem_map.mp hmemrec
          have hv0 : v = normalizeCell p0.2 := by
            have := congrArg Prod.snd hp0e
            simpa using this.symm
          rw [hv0]
          exact hm r0 hr0m p0 hp0
        exact ⟨hpmem,
          processError_allowedValues_enum j f v L d hLprop.2 hLprop.1 hvbr hpe⟩
    · intro f rec2 heq
      subst heq
      rcases jsValidate_shape s rec _ hjs with ⟨f2, he2, hf2, _⟩ |
        ⟨f2, v2, L2, he2, _, _, _⟩
      · injection he2 with hfe hre
        subst hfe
        exact processError_allowedValues_req j f rec2 d (hr f hf2) hpe
      · exact Violation.noConfusion he2

/-- C4 (amended, witness): the concrete enumeration violation on exSchemaF
traces to its record and carries allowedValues equal to the declared
enumeration. -/
theorem C4_amended_witness :
    ∃ i r e, ([exRowEnumB] : List RawRecord).get? i = some r ∧
      jsValidate exSchemaF (normalizeRecord r) = some e ∧
      processError i e = some (Diag.mk 2 [("F").data] (("B").data) [("A").data]) ∧
      (∀ f v L, e = .enumV f v L →
        (f, FieldConstraint.mk (some L)) ∈ exSchemaF.properties ∧
        (Diag.mk 2 [("F").data] (("B").data) [("A").data]).allowedValues = L) ∧
      (∀ f rec, e = .reqV f rec →
        (Diag.mk 2 [("F").data] (("B").data) [("A").data]).allowedValues = []) :=
  C4_amended exSchemaF [exRowEnumB] [⟨2, [("F").data], ("B").data, [("A").data]⟩]
    (by
      intro p hp L hL
      rw [show exSchemaF.properties =
        [((("F").data), FieldConstraint.mk (some [("A").data]))] from rfl,
        List.mem_singleton] at hp
      subst hp
      rw [Option.some.injEq] at hL
      subst hL
      exact ⟨by decide, by decide⟩)
    (by decide) (by decide) (by decide)
    (Diag.mk 2 [("F").data] (("B").data) [("A").data]) (by decide)

/-- C5: every diagnostic carries the 1-based source-table row of the
record it came from: a diagnostic produced from the record at 0-based
position i carries row i + 2 (header row occupies row 1), and every
returned row number is at least 2. -/
theorem C5_row_numbers (s : JsonSchema) (m : List RawRecord) (l : List Diag)
    (h : validateModelManifest s m = some l) :
    ∀ d ∈ l, 2 ≤ d.row ∧ ∃ i r, m.get? i = some r ∧ d.row = i + 2 ∧
      ∃ e, jsValidate s (normalizeRecord r) = some e ∧ processError i e = some d := by
  unfold validateModelManifest at h
  intro d hd
  obtain ⟨j, rec, e, hget, hjs, hpe⟩ :=
    validateRows_mem s (m.map normalizeRecord) 0 l h d hd
  rw [Nat.zero_add] at hpe
  have hrow := processError_row j e d hpe
  rw [List.get?_map] at hget
  cases hm0 : m.get? j with
  | none => rw [hm0] at hget; cases hget
  | some r0 =>
    rw [hm0] at hget
    rw [Option.map_some', Option.some.injEq] at hget
    subst hget
    exact ⟨by omega, j, r0, hm0, hrow, e, hjs, hpe⟩

/-- C5 (witness): in the mixed manifest the only diagnostic comes from the
second record (0-based position 1) and carries row 3. -/
theorem C5_witness :
    2 ≤ (Diag.mk 3 [("F").data] (("B").data) [("A").data]).row ∧
    ∃ i r, exManifestMixed.get? i = some r ∧
      (Diag.mk 3 [("F").data] (("B").data) [("A").data]).row = i + 2 ∧
      ∃ e, jsValidate exSchemaF (normalizeRecord r) = some e ∧
        processError i e = some (Diag.mk 3 [("F").data] (("B").data) [("A").data]) :=
  C5_row_numbers exSchemaF exManifestMixed
    [⟨3, [("F").data], ("B").data, [("A").data]⟩] (by decide)
    (Diag.mk 3 [("F").data] (("B").data) [("A").data]) (by decide)

/-- C9: validateModelManifest validates the normalized manifest: a missing
cell is validated as the empty string (fillna) and string cells are
stripped of surrounding whitespace, so two manifests with the same
normalization produce identical results; the cell normalization is
exactly empty-for-missing plus strip. -/
theorem C9_normalization (s : JsonSchema) (m1 m2 : List RawRecord)
    (h : m1.map normalizeRecord = m2.map normalizeRecord) :
    validateModelManifest s m1 = validateModelManifest s m2 ∧
    normalizeCell none = [] ∧ (∀ v, normalizeCell (some v) = pyStrip v) := by
  refine ⟨?_, rfl, fun v => rfl⟩
  unfold validateModelManifest
  rw [h]

/-- C9 (witness): a missing cell and a whitespace-only cell normalize
alike, so the two one-record manifests validate identically. -/
theorem C9_witness :
    validateModelManifest exSchemaF [exRowNull] =
      validateModelManifest exSchemaF [exRowSpaces] ∧
    normalizeCell none = [] ∧ (∀ v, normalizeCell (some v) = pyStrip v) :=
  C9_normalization exSchemaF [exRowNull] [exRowSpaces] (by decide)

/-- C10 (counterexample): a missing-required-field diagnostic names no
field at all: its fields component is empty, not a single field name,
refuting the claim that the fields component is always one field. -/
theorem C10_counterexample :
    validateModelManifest exSchemaReq [[]] =
      some [⟨2, [], ("G").data, []⟩] ∧
    ∀ f, (Diag.mk 2 [] (("G").data) []).fields ≠ [f] :=
  ⟨by decide, fun f hc => List.noConfusion hc⟩

/-- C10 (amended): every diagnostic names at most one offending field: the
fields component is the empty list (when the validator error location
names no field) or a single extracted field name, never two or more. -/
theorem C10_amended (s : JsonSchema) (m : List RawRecord) (l : List Diag)
    (h : validateModelManifest s m = some l) :
    ∀ d ∈ l, d.fields.length ≤ 1 := by
  unfold validateModelManifest at h
  intro d hd
  obtain ⟨j, rec, e, _, _, hpe⟩ :=
    validateRows_mem s (m.map normalizeRecord) 0 l h d hd
  exact processError_fields_len (0 + j) e d hpe

/-- C10 (amended, witness): the enumeration diagnostic of the concrete
run names a single field. -/
theorem C10_amended_witness :
    (Diag.mk 2 [("F").data] (("B").data) [("A").data]).fields.length ≤ 1 :=
  C10_amended exSchemaF [exRowEnumB] [⟨2, [("F").data], ("B").data, [("A").data]⟩]
    (by decide) (Diag.mk 2 [("F").data] (("B").data) [("A").data]) (by decide)

/-- C7 (counterexample): with two rule strings whose first holds the
double-colon delimiter, parse_validation_rules returns only the tokens of
the first string: the second rule string c is lost, refuting the claim
that every rule string contributes its tokens. -/
theorem C7_counterexample :
    parse_validation_rules [("a::b").data, ("c").data] = [("a").data, ("b").data] ∧
    ("c").data ∉ parse_validation_rules [("a::b").data, ("c").data] :=
  ⟨by decide, by decide⟩

/-- C7 (amended): only the first rule string is ever consulted.  For a
singleton rule list the parser returns the complete token list of that one
rule string, split on the double colon (the string whole when it carries
no delimiter); for every longer list, when the first rule string holds the
delimiter the result is that first string's token list alone, so every
later rule string is dropped, and when it does not the input list is
returned unchanged, unsplit. -/
theorem C7_amended :
    (∀ r, parse_validation_rules [r] = pySplit2 ':' ':' r) ∧
    (∀ r rs, containsPair ':' ':' r = true →
      parse_validation_rules (r :: rs) = pySplit2 ':' ':' r) ∧
    (∀ r rs, containsPair ':' ':' r = false →
      parse_validation_rules (r :: rs) = r :: rs) := by
  refine ⟨?_, ?_, ?_⟩
  · intro r
    show (if containsPair ':' ':' r = true then pySplit2 ':' ':' r else [r]) =
      pySplit2 ':' ':' r
    by_cases hc : containsPair ':' ':' r = true
    · rw [if_pos hc]
    · rw [if_neg hc]
      rw [pySplit2_of_containsPair_false ':' ':' r (by simpa using hc)]
  · intro r rs hc
    show (if containsPair ':' ':' r = true then pySplit2 ':' ':' r else r :: rs) =
      pySplit2 ':' ':' r
    rw [if_pos hc]
  · intro r rs hc
    show (if containsPair ':' ':' r = true then pySplit2 ':' ':' r else r :: rs) =
      r :: rs
    rw [if_neg (by rw [hc]; exact Bool.false_ne_true)]

/-- C7 (amended, witness): a two-element rule list whose first string
holds the delimiter yields only the first string's tokens, and one whose
first string does not is returned unchanged. -/
theorem C7_amended_witness :
    parse_validation_rules [("a::b").data, ("d").data] =
      pySplit2 ':' ':' (("a::b").data) ∧
    parse_validation_rules [("list like").data, ("d").data] =
      [("list like").data, ("d").data] :=
  ⟨C7_amended.2.1 (("a::b").data) [("d").data] (by decide),
   C7_amended.2.2 (("list like").data) [("d").data] (by decide)⟩
